import Mathlib

/-!
Verification of the streaming anomaly-detection core of the log-project
repository: the sliding-window conformal calibrator (src/calibration.py),
the stream orchestrator with its fixed and conformal calibration policies
and its metrics helpers (src/stream.py), and the streaming context scorer
(src/transformer.py).

Python floats are modelled as exact rationals (ℚ); `float("inf")` becomes
the top element of `WithTop ℚ`.  Python `round` (round-half-to-even) and
`int` (truncation toward zero) are modelled explicitly below.  List state
mirrors `collections.deque(maxlen=w)` with append-side eviction.
-/

attribute [local semireducible] Rat.add Rat.mul Rat.sub Rat.inv

namespace LogProject

/-- Floor of a rational, computed with integer floor-division so that the
kernel can evaluate it (the Mathlib `Int.floor` on ℚ does not reduce). -/
def qfloor (q : ℚ) : ℤ := q.num.fdiv q.den

/-- Python `int(x)` on a real value: truncation toward zero. -/
def pyInt (q : ℚ) : ℤ := if 0 ≤ q then qfloor q else -qfloor (-q)

/-- Python builtin `round(x)` (one-argument form): round half to even. -/
def pyRound (q : ℚ) : ℤ :=
  if q - qfloor q < 1 / 2 then qfloor q
  else if 1 / 2 < q - qfloor q then qfloor q + 1
  else if Even (qfloor q) then qfloor q else qfloor q + 1

/-- Python `sorted(xs)` for rational values, ascending. -/
def sortedL (l : List ℚ) : List ℚ := l.insertionSort (· ≤ ·)

/-- Append on a `collections.deque(maxlen=w)`: append on the right and
drop from the left whatever exceeds the capacity `w`. -/
def dequeAppend {α : Type _} (w : ℕ) (buf : List α) (x : α) : List α :=
  let b := buf ++ [x]
  if w < b.length then b.drop (b.length - w) else b

/-- State of `SlidingConformal` (src/calibration.py): the target
miscoverage rate `alpha`, the window capacity, and the current score
buffer (oldest first), with `buf.length ≤ window` as the deque invariant. -/
structure SlidingConformal where
  alpha : ℚ
  window : ℕ
  buf : List ℚ

/-- Operation `update(score)` of `SlidingConformal` for a score that is
already a finite real: `self._buf.append(float(score))` with eviction
(src/calibration.py lines 28-33). -/
def SlidingConformal.update (c : SlidingConformal) (s : ℚ) : SlidingConformal :=
  { c with buf := dequeAppend c.window c.buf s }

/-- Operation `reset()` of `SlidingConformal`: `self._buf.clear()`
(src/calibration.py lines 39-40). -/
def SlidingConformal.reset (c : SlidingConformal) : SlidingConformal :=
  { c with buf := [] }

/-- The quantile index `k = max(1, int(round((1.0 - alpha) * n)))` of
`SlidingConformal.threshold` (src/calibration.py line 51). -/
def kIndex (alpha : ℚ) (n : ℕ) : ℤ := max 1 (pyRound ((1 - alpha) * n))

/-- The nonempty-buffer branch of `threshold()`: sort the buffer ascending
and take the entry `arr[k - 1]` (src/calibration.py lines 51-53). -/
def thresholdQ (alpha : ℚ) (buf : List ℚ) : ℚ :=
  (sortedL buf).getD (kIndex alpha buf.length - 1).toNat 0

/-- Operation `threshold()` of `SlidingConformal` (src/calibration.py lines
46-53): `float("inf")` on an empty buffer, otherwise the empirical
(1 - alpha) quantile of the buffer. -/
def SlidingConformal.threshold (c : SlidingConformal) : WithTop ℚ :=
  if c.buf.length = 0 then ⊤ else ((thresholdQ c.alpha c.buf : ℚ) : WithTop ℚ)

/-- The k-th smallest element of a list, 1-indexed, as the spec phrases the
quantile rule. -/
def kthSmallest (l : List ℚ) (k : ℕ) : ℚ := (sortedL l).getD (k - 1) 0

/-- A Python float value: a finite rational or one of the non-finite
floats.  `float(score)` succeeds on all of these. -/
inductive PyFloat where
  | fin (q : ℚ)
  | pinf
  | ninf
  | nan
deriving DecidableEq

/-- Whether a Python float is finite (`math.isfinite`). -/
def PyFloat.isFinite : PyFloat → Bool
  | .fin _ => true
  | _ => false

/-- Operation `update(score)` of `SlidingConformal` over the full input
domain (src/calibration.py lines 28-33): the argument models the result of
`float(score)` — `none` when the conversion raises (then `update` re-raises
a ValueError before touching the buffer), `some v` when it yields the float
`v`, which is appended with eviction.  The first component records whether
the call raised; the second is the buffer after the call. -/
def updateFloat (window : ℕ) (buf : List PyFloat) (score : Option PyFloat) :
    Bool × List PyFloat :=
  match score with
  | none => (true, buf)
  | some s => (false, dequeAppend window buf s)

/-- The one-time fixed threshold of the no-calib path (src/stream.py lines
296-299): `arr = sorted(warm_scores); k = int((1 - alpha) * (len(arr) - 1))`
clamped to `[0, len(arr) - 1]`, returning `arr[k]` (0-indexed). -/
def fixedThreshold (alpha : ℚ) (warm : List ℚ) : ℚ :=
  let arr := sortedL warm
  let k := pyInt ((1 - alpha) * ((arr.length : ℚ) - 1))
  let k2 := max 0 (min k ((arr.length : ℤ) - 1))
  arr.getD k2.toNat 0

/-- The nearest-rank-floor quantile of the sorted warmup buffer, written
with the mathematical floor: the element at 0-indexed position
`⌊(1 - alpha) * (n - 1)⌋` of the ascending sort.  This is the rule the
fixed-threshold computation actually implements. -/
def fixedThresholdSpec (alpha : ℚ) (warm : List ℚ) : ℚ :=
  (sortedL warm).getD (⌊(1 - alpha) * ((warm.length : ℚ) - 1)⌋).toNat 0

/-- Helper `perc(samples, p)` of src/stream.py lines 89-95: percentile with
floor index over the sorted samples; `None`-like NaN (here `none`) on empty
input. -/
def perc (samples : List ℚ) (p : ℚ) : Option ℚ :=
  if samples = [] then none
  else
    let ys := sortedL samples
    some (ys.getD (pyInt ((p / 100) * ((ys.length : ℚ) - 1))).toNat 0)

/-- The negative-labeled scores `[s for s, y in zip(scores, labels) if
int(y) == 0]` (src/stream.py line 103). -/
def negScores (scores : List ℚ) (labels : List ℤ) : List ℚ :=
  (scores.zip labels).filterMap fun sy => if sy.2 = 0 then some sy.1 else none

/-- The positive-labeled scores `[s for s, y in zip(scores, labels) if
int(y) == 1]` (src/stream.py line 104). -/
def posScores (scores : List ℚ) (labels : List ℤ) : List ℚ :=
  (scores.zip labels).filterMap fun sy => if sy.2 = 1 then some sy.1 else none

/-- The threshold at the `(1 - target_fpr)` quantile of the negatives
(src/stream.py lines 107-111): `k = int((1 - target_fpr) * (len(neg) - 1))`
clamped to `[0, len(neg) - 1]` over the ascending sort, 0-indexed. -/
def fprThreshold (neg : List ℚ) (targetFpr : ℚ) : ℚ :=
  let negSorted := sortedL neg
  let k := pyInt ((1 - targetFpr) * ((negSorted.length : ℚ) - 1))
  let k2 := max 0 (min k ((negSorted.length : ℤ) - 1))
  negSorted.getD k2.toNat 0

/-- Helper `tpr_at_fpr(scores, labels, target_fpr)` of src/stream.py lines
97-113.  Returns `none` for the NaN pair (labels missing, length mismatch,
or an empty class), otherwise `some (tpr, thr)` with `tpr` the fraction of
positive-labeled scores at least the negatives-quantile threshold. -/
def tprAtFpr (scores : List ℚ) (labels : Option (List ℤ)) (targetFpr : ℚ) :
    Option (ℚ × ℚ) :=
  match labels with
  | none => none
  | some ys =>
    if scores.length ≠ ys.length then none
    else
      let neg := negScores scores ys
      let pos := posScores scores ys
      if neg = [] ∨ pos = [] then none
      else
        let thr := fprThreshold neg targetFpr
        some (((pos.countP fun x => decide (thr ≤ x)) : ℚ) / (pos.length : ℚ), thr)

/-- State of `TransformerScorer` (src/transformer.py): the context window
capacity and the ring buffer of embedded tokens.  Embedding vectors are an
abstract type `V`: the float32 vector numerics are not part of the claims
settled here. -/
structure TransformerScorer (V : Type _) where
  window : ℕ
  buf : List V

/-- Operation `score_and_update(tokens)` of `TransformerScorer`
(src/transformer.py lines 66-75 with `_score`, lines 79-102): score first —
0.0 for an empty token list or an empty context buffer, otherwise the value
of the numeric core (`_context_vector`, cosine distances and their clamped
mean, abstracted here as the parameter `core`) — then append the embedding
of every token (`_embed`, abstracted as `emb`) with eviction. -/
def TransformerScorer.scoreAndUpdate {V : Type _} (core : List String → List V → ℚ)
    (emb : String → V) (m : TransformerScorer V) (tokens : List String) :
    ℚ × TransformerScorer V :=
  let score : ℚ := if tokens.isEmpty then 0 else if m.buf.isEmpty then 0 else core tokens m.buf
  (score, { m with buf := tokens.foldl (fun b t => dequeAppend m.window b (emb t)) m.buf })

/-- Per-run configuration of the orchestrator loop of src/stream.py:
`alpha`, `window`, `warmup`, the `no_calib` policy flag, and the optional
ground-truth labels. -/
structure OrchConfig where
  alpha : ℚ
  window : ℕ
  warmup : ℕ
  noCalib : Bool
  labels : Option (List ℤ)

/-- The mutable state of the per-event loop of src/stream.py lines 255-336:
warmup buffer, frozen fixed threshold, conformal calibrator and its update
counter `calib_n`, the counters, and the recorded per-event series. -/
structure OrchState where
  warmScores : List ℚ
  fixedThr : Option ℚ
  calib : SlidingConformal
  calibN : ℕ
  nAnom : ℕ
  nDrift : ℕ
  driftIdxs : List ℕ
  scores : List ℚ
  flags : List Bool
  thrSeries : List (WithTop ℚ)
  yTrue : List ℤ

/-- The loop state before the first event (src/stream.py lines 242-271). -/
def initState (cfg : OrchConfig) : OrchState :=
  { warmScores := [], fixedThr := none,
    calib := { alpha := cfg.alpha, window := cfg.window, buf := [] },
    calibN := 0, nAnom := 0, nDrift := 0, driftIdxs := [],
    scores := [], flags := [], thrSeries := [], yTrue := [] }

/-- The tail of one loop iteration after the decision: drift handling
(src/stream.py lines 316-329 — in conformal mode a drift signal resets the
calibrator; `calib_n` is not touched) and collection of the per-event
series (lines 331-336). -/
def finishEvent (cfg : OrchConfig) (st : OrchState) (i : ℕ) (s : ℚ) (driftNow : Bool)
    (warm : List ℚ) (fthr : Option ℚ) (calib : SlidingConformal) (cn : ℕ)
    (thr : WithTop ℚ) (isAnom : Bool) : OrchState :=
  let calib2 := if driftNow && !cfg.noCalib then calib.reset else calib
  { warmScores := warm, fixedThr := fthr, calib := calib2, calibN := cn,
    nAnom := st.nAnom + (if isAnom then 1 else 0),
    nDrift := if driftNow then st.nDrift + 1 else st.nDrift,
    driftIdxs := if driftNow then st.driftIdxs ++ [i] else st.driftIdxs,
    scores := st.scores ++ [s],
    flags := st.flags ++ [isAnom],
    thrSeries := st.thrSeries ++ [thr],
    yTrue := match cfg.labels with
      | none => st.yTrue
      | some ys => if i < ys.length then st.yTrue ++ [ys.getD i 0] else st.yTrue }

/-- One iteration of the per-event loop (src/stream.py lines 273-336) for
event index `i` with score `s`; `driftNow` is the boolean the ADWIN drift
detector (an external dependency, modelled as an oracle) reports for this
event.  Warmup collection, then the fixed or conformal decision, then the
shared tail. -/
def stepEvent (cfg : OrchConfig) (st : OrchState) (i : ℕ) (s : ℚ) (driftNow : Bool) :
    OrchState :=
  let warm := if st.warmScores.length < cfg.warmup then st.warmScores ++ [s]
              else st.warmScores
  if cfg.noCalib then
    let fthr := if st.fixedThr.isNone && decide (cfg.warmup ≤ warm.length)
                then some (fixedThreshold cfg.alpha warm) else st.fixedThr
    let thr : WithTop ℚ := fthr.elim ⊤ (fun t => (t : WithTop ℚ))
    let isAnom := fthr.isSome && decide (thr < ((s : ℚ) : WithTop ℚ))
    finishEvent cfg st i s driftNow warm fthr st.calib st.calibN thr isAnom
  else
    let calib := st.calib.update s
    let cn := st.calibN + 1
    let thr := calib.threshold
    let isAnom := decide (cfg.warmup ≤ cn) && decide (thr < ((s : ℚ) : WithTop ℚ))
    finishEvent cfg st i s driftNow warm st.fixedThr calib cn thr isAnom

/-- The event loop from index `i` on the remaining scores. -/
def runFrom (cfg : OrchConfig) (driftSig : ℕ → Bool) :
    OrchState → ℕ → List ℚ → OrchState
  | st, _, [] => st
  | st, i, s :: rest => runFrom cfg driftSig (stepEvent cfg st i s (driftSig i)) (i + 1) rest

/-- A whole run: the loop of src/stream.py lines 273-336 over the scored
event stream, starting from the initial state. -/
def runStream (cfg : OrchConfig) (scores : List ℚ) (driftSig : ℕ → Bool) : OrchState :=
  runFrom cfg driftSig (initState cfg) 0 scores

/-- The post-loop TPR@1%FPR computation (src/stream.py lines 349-352):
`tpr1` stays NaN (`none`) unless labels were supplied and the collected
`y_true` aligns 1:1 with the collected scores. -/
def tpr1OfRun (cfg : OrchConfig) (st : OrchState) : Option (ℚ × ℚ) :=
  match cfg.labels with
  | none => none
  | some _ =>
    if st.yTrue.length = st.scores.length
    then tprAtFpr st.scores (some st.yTrue) (mkRat 1 100) else none

/-- Observer for the spec reading of the warmup gate: the number of
calibrator updates event `i` contributes up to and including itself since
the most recent drift-triggered calibrator reset (each event updates the
conformal calibrator exactly once; a drift signal at event `j` resets the
calibrator after the decision of event `j`). -/
def updatesSinceReset (driftSig : ℕ → Bool) : ℕ → ℕ
  | 0 => 1
  | i + 1 => if driftSig i then 1 else updatesSinceReset driftSig i + 1

/-- Loop invariant of the per-event loop after `m` events: the recorded
series have one entry per event, the conformal update counter `calib_n`
equals the number of events since the start of the run, collected labels
are the truncation of the supplied labels, and every recorded anomaly flag
was set by a strict comparison against the recorded threshold under the
warmup gate. -/
def RunInv (cfg : OrchConfig) (st : OrchState) (m : ℕ) : Prop :=
  st.scores.length = m ∧ st.flags.length = m ∧ st.thrSeries.length = m ∧
  (cfg.noCalib = false → st.calibN = m) ∧
  (∀ ls, cfg.labels = some ls → st.yTrue = ls.take m) ∧
  (∀ j, st.flags.getD j false = true →
    st.thrSeries.getD j ⊤ < ((st.scores.getD j 0 : ℚ) : WithTop ℚ) ∧
    (cfg.noCalib = false → cfg.warmup ≤ j + 1))

/-- The concrete configuration used to exhibit the behavior of a run whose
labels array is strictly shorter than its event stream. -/
def shortLabelCfg : OrchConfig :=
  { alpha := mkRat 1 100, window := 10, warmup := 2, noCalib := false,
    labels := some [0, 1] }

/-- The concrete conformal configuration used to exhibit the warmup-gate
behavior across a drift reset. -/
def driftGateCfg : OrchConfig :=
  { alpha := mkRat 1 2, window := 10, warmup := 3, noCalib := false,
    labels := none }

/-! Helper lemmas: the rounding primitives. -/

theorem qfloor_eq_floor (q : ℚ) : qfloor q = ⌊q⌋ := by
  rw [Rat.floor_def, qfloor, Int.fdiv_eq_ediv _ (by positivity)]

theorem pyInt_eq_floor {q : ℚ} (h : 0 ≤ q) : pyInt q = ⌊q⌋ := by
  rw [pyInt, if_pos h, qfloor_eq_floor]

theorem pyRound_intCast (m : ℤ) : pyRound (m : ℚ) = m := by
  rw [pyRound, qfloor_eq_floor, Int.floor_intCast]
  norm_num

theorem floor_le_pyRound (q : ℚ) : ⌊q⌋ ≤ pyRound q := by
  rw [pyRound, qfloor_eq_floor]
  split_ifs <;> omega

theorem pyRound_le_floor_add_one (q : ℚ) : pyRound q ≤ ⌊q⌋ + 1 := by
  rw [pyRound, qfloor_eq_floor]
  split_ifs <;> omega

theorem pyRound_mono {a b : ℚ} (h : a ≤ b) : pyRound a ≤ pyRound b := by
  have hf : ⌊a⌋ ≤ ⌊b⌋ := Int.floor_mono h
  rcases eq_or_lt_of_le hf with heq | hlt
  · rw [pyRound, pyRound, qfloor_eq_floor, qfloor_eq_floor, ← heq]
    split_ifs <;> first | omega | linarith
  · calc pyRound a ≤ ⌊a⌋ + 1 := pyRound_le_floor_add_one a
    _ ≤ ⌊b⌋ := hlt
    _ ≤ pyRound b := floor_le_pyRound b

theorem pyRound_le_int {q : ℚ} {n : ℤ} (h : q ≤ (n : ℚ)) : pyRound q ≤ n := by
  have := pyRound_mono h
  rwa [pyRound_intCast] at this

theorem pyRound_nonneg {q : ℚ} (h : 0 ≤ q) : 0 ≤ pyRound q := by
  have := pyRound_mono h
  rwa [show pyRound (0 : ℚ) = 0 from pyRound_intCast 0] at this

/-! Helper lemmas: the quantile index. -/

theorem kIndex_one_le (alpha : ℚ) (n : ℕ) : 1 ≤ kIndex alpha n := le_max_left _ _

theorem kIndex_le {alpha : ℚ} (h0 : 0 ≤ alpha) {n : ℕ} (hn : 1 ≤ n) :
    kIndex alpha n ≤ (n : ℤ) := by
  refine max_le (by exact_mod_cast hn) (pyRound_le_int ?_)
  have hn0 : (0 : ℚ) ≤ (n : ℚ) := by positivity
  calc (1 - alpha) * (n : ℚ) ≤ 1 * (n : ℚ) := by nlinarith
  _ = ((n : ℤ) : ℚ) := by push_cast; ring

theorem kIndex_mono {alpha : ℚ} (h1 : alpha ≤ 1) (n : ℕ) :
    kIndex alpha n ≤ kIndex alpha (n + 1) := by
  refine max_le_max le_rfl (pyRound_mono ?_)
  have : (0 : ℚ) ≤ 1 - alpha := by linarith
  have hn : (n : ℚ) ≤ (n : ℚ) + 1 := by linarith
  calc (1 - alpha) * (n : ℚ) ≤ (1 - alpha) * ((n : ℚ) + 1) := by nlinarith
  _ = (1 - alpha) * ((n + 1 : ℕ) : ℚ) := by push_cast; ring

/-! Helper lemmas: sorting and list access. -/

theorem sortedL_sorted (l : List ℚ) : (sortedL l).Sorted (· ≤ ·) :=
  List.sorted_insertionSort _ l

theorem sortedL_perm (l : List ℚ) : (sortedL l).Perm l :=
  List.perm_insertionSort _ l

theorem sortedL_length (l : List ℚ) : (sortedL l).length = l.length :=
  (sortedL_perm l).length_eq

theorem getD_eq_getElem {α : Type _} (l : List α) {i : ℕ} (h : i < l.length) (d : α) :
    l.getD i d = l[i] := by
  rw [List.getD_eq_getElem?_getD, List.getElem?_eq_getElem h, Option.getD_some]

theorem getD_mem {α : Type _} (l : List α) {i : ℕ} (h : i < l.length) (d : α) :
    l.getD i d ∈ l := by
  rw [getD_eq_getElem l h d]
  exact l.getElem_mem h

theorem getD_append_lt {α : Type _} (l : List α) (a d : α) {j : ℕ} (h : j < l.length) :
    (l ++ [a]).getD j d = l.getD j d :=
  List.getD_append _ _ _ _ h

theorem getD_append_len {α : Type _} (l : List α) (a d : α) :
    (l ++ [a]).getD l.length d = a := by
  rw [List.getD_append_right _ _ _ _ le_rfl]
  simp

theorem getD_of_len_le {α : Type _} (l : List α) (d : α) {j : ℕ} (h : l.length ≤ j) :
    l.getD j d = d := by
  rw [List.getD_eq_getElem?_getD, List.getElem?_eq_none h, Option.getD_none]

/-- In an ascending-sorted list, the entry at index `i` is at most `x` iff
more than `i` entries are at most `x`. -/
theorem sorted_getD_le_iff {ys : List ℚ} (hs : ys.Sorted (· ≤ ·)) :
    ∀ i : ℕ, i < ys.length → ∀ x : ℚ,
      (ys.getD i 0 ≤ x ↔ i < ys.countP (fun y => decide (y ≤ x))) := by
  induction ys with
  | nil => intro i hi; simp at hi
  | cons h t ih =>
    rw [List.sorted_cons] at hs
    obtain ⟨hhd, hst⟩ := hs
    intro i hi x
    by_cases hhx : h ≤ x
    · cases i with
      | zero => simp [List.countP_cons, hhx]
      | succ i =>
        rw [List.getD_cons_succ, List.countP_cons]
        simp only [hhx, decide_eq_true_eq, if_pos]
        rw [ih hst i (by simpa using hi) x]
        omega
    · have hzero : t.countP (fun y => decide (y ≤ x)) = 0 := by
        rw [List.countP_eq_zero]
        intro a ha
        simp only [decide_eq_true_eq]
        intro hax
        exact hhx (le_trans (hhd a ha) hax)
      rw [List.countP_cons]
      simp only [decide_eq_true_eq, hhx, if_false, hzero]
      cases i with
      | zero => simp [hhx]
      | succ i =>
        rw [List.getD_cons_succ]
        have hmem : t.getD i 0 ∈ t := getD_mem t (by simpa using hi) 0
        constructor
        · intro hle
          exact absurd (le_trans (hhd _ hmem) hle) hhx
        · omega
/-- In an ascending-sorted list, `x` is at most the entry at index `i` iff
at most `i` entries are strictly below `x`. -/
theorem le_sorted_getD_iff {ys : List ℚ} (hs : ys.Sorted (· ≤ ·)) :
    ∀ i : ℕ, i < ys.length → ∀ x : ℚ,
      (x ≤ ys.getD i 0 ↔ ys.countP (fun y => decide (y < x)) ≤ i) := by
  induction ys with
  | nil => intro i hi; simp at hi
  | cons h t ih =>
    rw [List.sorted_cons] at hs
    obtain ⟨hhd, hst⟩ := hs
    intro i hi x
    by_cases hhx : h < x
    · cases i with
      | zero =>
        rw [List.getD_cons_zero, List.countP_cons]
        simp only [hhx, decide_eq_true_eq, if_pos]
        constructor
        · intro hle; exact absurd (lt_of_lt_of_le hhx hle) (lt_irrefl h)
        · omega
      | succ i =>
        rw [List.getD_cons_succ, List.countP_cons]
        simp only [hhx, decide_eq_true_eq, if_pos]
        rw [ih hst i (by simpa using hi) x]
        omega
    · push_neg at hhx
      have hzero : t.countP (fun y => decide (y < x)) = 0 := by
        rw [List.countP_eq_zero]
        intro a ha
        simp only [decide_eq_true_eq, not_lt]
        exact le_trans hhx (hhd a ha)
      rw [List.countP_cons]
      simp only [decide_eq_true_eq, not_lt.mpr hhx, if_false, hzero]
      cases i with
      | zero =>
        rw [List.getD_cons_zero]
        exact iff_of_true hhx (by omega)
      | succ i =>
        rw [List.getD_cons_succ]
        have hmem : t.getD i 0 ∈ t := getD_mem t (by simpa using hi) 0
        exact iff_of_true (le_trans hhx (hhd _ hmem)) (by omega)

/-! Helper lemmas: deque eviction and threshold monotonicity. -/

theorem dequeAppend_of_lt {α : Type _} {w : ℕ} {buf : List α} (h : buf.length < w) (x : α) :
    dequeAppend w buf x = buf ++ [x] := by
  rw [dequeAppend]
  simp only [List.length_append, List.length_singleton]
  rw [if_neg (by omega)]

theorem dequeAppend_of_eq {α : Type _} {w : ℕ} {buf : List α} (h : buf.length = w)
    (hb : buf ≠ []) (x : α) : dequeAppend w buf x = buf.tail ++ [x] := by
  have hpos : 1 ≤ buf.length := List.length_pos.mpr hb
  rw [dequeAppend]
  simp only [List.length_append, List.length_singleton]
  rw [if_pos (by omega), show buf.length + 1 - w = 1 by omega,
    List.drop_append_of_le_length (by omega), List.drop_one]

theorem dequeAppend_ne_nil {α : Type _} {w : ℕ} {buf : List α} (hb : buf ≠ [])
    (hw : buf.length ≤ w) (x : α) : dequeAppend w buf x ≠ [] := by
  rcases lt_or_eq_of_le hw with h | h
  · rw [dequeAppend_of_lt h]; simp
  · rw [dequeAppend_of_eq h hb]; simp

theorem update_buf (c : SlidingConformal) (s : ℚ) :
    (c.update s).buf = dequeAppend c.window c.buf s := rfl

theorem update_alpha (c : SlidingConformal) (s : ℚ) : (c.update s).alpha = c.alpha := rfl

theorem threshold_eq_of_ne_nil {c : SlidingConformal} (hb : c.buf ≠ []) :
    c.threshold = ((thresholdQ c.alpha c.buf : ℚ) : WithTop ℚ) := by
  rw [SlidingConformal.threshold, if_neg (by simpa [List.length_eq_zero] using hb)]

/-- Adding a score at least as large as the current threshold cannot lower
the threshold, whether the window is full (evicting the oldest entry) or
not. -/
theorem thresholdQ_mono_high {alpha : ℚ} {w : ℕ} {buf : List ℚ} {s : ℚ}
    (h0 : 0 < alpha) (h1 : alpha < 1) (hb : buf ≠ []) (hw : buf.length ≤ w)
    (hs : thresholdQ alpha buf ≤ s) :
    thresholdQ alpha buf ≤ thresholdQ alpha (dequeAppend w buf s) := by
  set t := thresholdQ alpha buf with ht
  have hn : 1 ≤ buf.length := List.length_pos.mpr hb
  have hk1 : 1 ≤ kIndex alpha buf.length := kIndex_one_le _ _
  have hk2 : kIndex alpha buf.length ≤ (buf.length : ℤ) := kIndex_le h0.le hn
  have hidx : (kIndex alpha buf.length - 1).toNat < (sortedL buf).length := by
    rw [sortedL_length]; omega
  have hcount : buf.countP (fun y => decide (y < t)) ≤ (kIndex alpha buf.length - 1).toNat := by
    rw [← (sortedL_perm buf).countP_eq]
    exact (le_sorted_getD_iff (sortedL_sorted buf) _ hidx t).mp (le_of_eq ht)
  have hsnot : (decide (s < t) : Bool) = false := by
    simp only [decide_eq_false_iff_not, not_lt]; exact hs
  rcases lt_or_eq_of_le hw with hlt | heqw
  · -- roomy window: pure append, the index can only move up
    rw [dequeAppend_of_lt hlt]
    have hlen : (buf ++ [s]).length = buf.length + 1 := by simp
    have hk1' : 1 ≤ kIndex alpha (buf.length + 1) := kIndex_one_le _ _
    have hk2' : kIndex alpha (buf.length + 1) ≤ ((buf.length : ℤ) + 1) := by
      have := kIndex_le h0.le (n := buf.length + 1) (by omega)
      push_cast at this ⊢
      exact this
    have hkk : kIndex alpha buf.length ≤ kIndex alpha (buf.length + 1) :=
      kIndex_mono h1.le _
    have hidx' : (kIndex alpha (buf.length + 1) - 1).toNat < (sortedL (buf ++ [s])).length := by
      rw [sortedL_length, hlen]; omega
    rw [thresholdQ, hlen]
    refine (le_sorted_getD_iff (sortedL_sorted _) _ hidx' t).mpr ?_
    rw [(sortedL_perm _).countP_eq, List.countP_append]
    have : List.countP (fun y => decide (y < t)) [s] = 0 := by
      simp [List.countP_cons, hsnot]
    omega
  · -- full window: the oldest entry is evicted, the index is unchanged
    rw [dequeAppend_of_eq heqw hb]
    obtain ⟨hd, tl, rfl⟩ := List.exists_cons_of_ne_nil hb
    have hlen : (tl ++ [s]).length = (hd :: tl).length := by simp
    have hidx' : (kIndex alpha (hd :: tl).length - 1).toNat < (sortedL (tl ++ [s])).length := by
      rw [sortedL_length, hlen]; omega
    rw [thresholdQ, List.tail_cons, hlen]
    refine (le_sorted_getD_iff (sortedL_sorted _) _ hidx' t).mpr ?_
    rw [(sortedL_perm _).countP_eq, List.countP_append]
    have h1s : List.countP (fun y => decide (y < t)) [s] = 0 := by
      simp [List.countP_cons, hsnot]
    have h2s : List.countP (fun y => decide (y < t)) tl ≤
        List.countP (fun y => decide (y < t)) (hd :: tl) := by
      rw [List.countP_cons]; omega
    omega

/-- On a full window, adding a score no larger than the evicted oldest
entry cannot raise the threshold. -/
theorem thresholdQ_mono_low {alpha : ℚ} {w : ℕ} {buf : List ℚ} {s : ℚ}
    (h0 : 0 < alpha) (hb : buf ≠ []) (hfull : buf.length = w)
    (hs : s ≤ buf.headI) :
    thresholdQ alpha (dequeAppend w buf s) ≤ thresholdQ alpha buf := by
  set t := thresholdQ alpha buf with ht
  have hn : 1 ≤ buf.length := List.length_pos.mpr hb
  have hk1 : 1 ≤ kIndex alpha buf.length := kIndex_one_le _ _
  have hk2 : kIndex alpha buf.length ≤ (buf.length : ℤ) := kIndex_le h0.le hn
  have hidx : (kIndex alpha buf.length - 1).toNat < (sortedL buf).length := by
    rw [sortedL_length]; omega
  have hcount : (kIndex alpha buf.length - 1).toNat <
      buf.countP (fun y => decide (y ≤ t)) := by
    rw [← (sortedL_perm buf).countP_eq]
    exact (sorted_getD_le_iff (sortedL_sorted buf) _ hidx t).mp (le_of_eq ht.symm)
  rw [dequeAppend_of_eq hfull hb]
  obtain ⟨hd, tl, rfl⟩ := List.exists_cons_of_ne_nil hb
  rw [List.headI_cons] at hs
  have hlen : (tl ++ [s]).length = (hd :: tl).length := by simp
  have hidx' : (kIndex alpha (hd :: tl).length - 1).toNat < (sortedL (tl ++ [s])).length := by
    rw [sortedL_length, hlen]; omega
  rw [thresholdQ, List.tail_cons, hlen]
  refine (sorted_getD_le_iff (sortedL_sorted _) _ hidx' t).mpr ?_
  rw [(sortedL_perm _).countP_eq, List.countP_append]
  by_cases hht : hd ≤ t
  · have h1s : List.countP (fun y => decide (y ≤ t)) [s] = 1 := by
      simp [List.countP_cons, decide_eq_true (le_trans hs hht)]
    have hcons : List.countP (fun y => decide (y ≤ t)) (hd :: tl) ≤
        List.countP (fun y => decide (y ≤ t)) tl + 1 := by
      rw [List.countP_cons]; split_ifs <;> omega
    omega
  · have hcons : List.countP (fun y => decide (y ≤ t)) (hd :: tl) =
        List.countP (fun y => decide (y ≤ t)) tl := by
      rw [List.countP_cons]
      simp [hht]
    omega

/-! Helper lemmas: the orchestrator loop invariant. -/

theorem finishEvent_inv {cfg : OrchConfig} {st : OrchState} {m : ℕ}
    (h : RunInv cfg st m) {s : ℚ} {driftNow : Bool}
    {warm : List ℚ} {fthr : Option ℚ} {calib : SlidingConformal} {cn : ℕ}
    {thr : WithTop ℚ} {isAnom : Bool}
    (hcn : cfg.noCalib = false → cn = m + 1)
    (hAnom : isAnom = true → thr < ((s : ℚ) : WithTop ℚ) ∧
      (cfg.noCalib = false → cfg.warmup ≤ m + 1)) :
    RunInv cfg (finishEvent cfg st m s driftNow warm fthr calib cn thr isAnom) (m + 1) := by
  obtain ⟨hsc, hfl, hth, _hcal, hyt, hdec⟩ := h
  refine ⟨by simp [finishEvent, hsc], by simp [finishEvent, hfl],
    by simp [finishEvent, hth], fun hmode => by simpa [finishEvent] using hcn hmode,
    ?_, ?_⟩
  · intro ls hls
    have hy := hyt ls hls
    simp only [finishEvent, hls]
    by_cases hm : m < ls.length
    · rw [if_pos hm, hy, getD_eq_getElem ls hm]
      rw [← List.concat_eq_append]
      exact List.take_concat_get ls m hm
    · rw [if_neg hm, hy, List.take_succ, List.getElem?_eq_none (by omega)]
      simp
  · intro j hflag
    simp only [finishEvent] at hflag ⊢
    rcases lt_trichotomy j m with hj | hj | hj
    · rw [getD_append_lt _ _ _ (hfl ▸ hj)] at hflag
      obtain ⟨hlt, hwarm⟩ := hdec j hflag
      rw [getD_append_lt _ _ _ (hth ▸ hj), getD_append_lt _ _ _ (hsc ▸ hj)]
      exact ⟨hlt, hwarm⟩
    · subst hj
      have hfl2 : (st.flags ++ [isAnom]).getD j false = isAnom := by
        rw [← hfl]; exact getD_append_len _ _ _
      rw [hfl2] at hflag
      obtain ⟨hlt, hwarm⟩ := hAnom hflag
      have hth2 : (st.thrSeries ++ [thr]).getD j ⊤ = thr := by
        rw [← hth]; exact getD_append_len _ _ _
      have hsc2 : (st.scores ++ [s]).getD j 0 = s := by
        rw [← hsc]; exact getD_append_len _ _ _
      rw [hth2, hsc2]
      exact ⟨hlt, hwarm⟩
    · rw [getD_of_len_le _ _ (by simp only [List.length_append,
        List.length_singleton, hfl]; omega)] at hflag
      exact absurd hflag (by simp)

theorem stepEvent_inv {cfg : OrchConfig} {st : OrchState} {m : ℕ}
    (h : RunInv cfg st m) (s : ℚ) (driftNow : Bool) :
    RunInv cfg (stepEvent cfg st m s driftNow) (m + 1) := by
  cases hmode : cfg.noCalib with
  | true =>
    simp only [stepEvent, hmode, if_true]
    refine finishEvent_inv h (fun hf => by rw [hmode] at hf; cases hf) ?_
    intro hA
    rw [Bool.and_eq_true] at hA
    exact ⟨of_decide_eq_true hA.2, fun hf => by rw [hmode] at hf; cases hf⟩
  | false =>
    simp only [stepEvent, hmode, if_false]
    have hcal := h.2.2.2.1 hmode
    refine finishEvent_inv h (fun _ => by rw [hcal]) ?_
    intro hA
    rw [Bool.and_eq_true] at hA
    refine ⟨of_decide_eq_true hA.2, fun _ => ?_⟩
    have hg := of_decide_eq_true hA.1
    omega

theorem initState_inv (cfg : OrchConfig) : RunInv cfg (initState cfg) 0 := by
  refine ⟨rfl, rfl, rfl, fun _ => rfl, fun ls _ => by simp [initState], ?_⟩
  intro j hj
  simp [initState] at hj

theorem runFrom_inv {cfg : OrchConfig} (driftSig : ℕ → Bool) (rest : List ℚ) :
    ∀ (st : OrchState) (m : ℕ), RunInv cfg st m →
      RunInv cfg (runFrom cfg driftSig st m rest) (m + rest.length) := by
  induction rest with
  | nil => intro st m h; simpa [runFrom] using h
  | cons s rest ih =>
    intro st m h
    rw [runFrom]
    have h2 := ih (stepEvent cfg st m s (driftSig m)) (m + 1) (stepEvent_inv h s (driftSig m))
    have harith : m + (s :: rest).length = m + 1 + rest.length := by
      simp only [List.length_cons]; omega
    rw [harith]
    exact h2

theorem runStream_inv (cfg : OrchConfig) (scores : List ℚ) (driftSig : ℕ → Bool) :
    RunInv cfg (runStream cfg scores driftSig) scores.length := by
  have := runFrom_inv driftSig scores (initState cfg) 0 (initState_inv cfg)
  simpa [runStream] using this

/-! The claims. -/

/-- C1: threshold() returns positive infinity on an empty buffer and
otherwise the k-th smallest buffer entry (1-indexed) with
k = max(1, round((1 - alpha) * n)) under round-half-to-even; in
particular, with window 4, feeding scores [1,2,3,4,5] leaves the buffer at
[2,3,4,5], and with alpha = 1/2 the threshold is 3.  The last conjunct
exhibits the round-half-to-even tie-break: n = 5, alpha = 1/2 gives
k = round(2.5) = 2, so the threshold of [1,2,3,4,5] is 2, not 3. -/
theorem claim1_threshold_quantile_rule (c : SlidingConformal) :
    (c.buf = [] → c.threshold = ⊤) ∧
    (c.buf ≠ [] → c.threshold =
      ((kthSmallest c.buf (kIndex c.alpha c.buf.length).toNat : ℚ) : WithTop ℚ)) ∧
    ((((((⟨mkRat 1 2, 4, []⟩ : SlidingConformal).update 1).update 2).update
        3).update 4).update 5).buf = [2, 3, 4, 5] ∧
    (⟨mkRat 1 2, 4, [2, 3, 4, 5]⟩ : SlidingConformal).threshold = ((3 : ℚ) : WithTop ℚ) ∧
    (⟨mkRat 1 2, 10, [1, 2, 3, 4, 5]⟩ : SlidingConformal).threshold = ((2 : ℚ) : WithTop ℚ) := by
  refine ⟨?_, ?_, by decide, by decide, by decide⟩
  · intro hb
    rw [SlidingConformal.threshold, if_pos (by simp [hb])]
  · intro hb
    rw [threshold_eq_of_ne_nil hb]
    rw [thresholdQ, kthSmallest]
    have h1 : 1 ≤ kIndex c.alpha c.buf.length := kIndex_one_le _ _
    have : (kIndex c.alpha c.buf.length - 1).toNat = (kIndex c.alpha c.buf.length).toNat - 1 := by
      omega
    rw [this]

/-- Witness for C1 at the concrete calibrator with alpha = 1/2, window 4 and
buffer [2,3,4,5]. -/
theorem claim1_witness :
    (⟨mkRat 1 2, 4, [2, 3, 4, 5]⟩ : SlidingConformal).buf ≠ [] ∧
    (⟨mkRat 1 2, 4, [2, 3, 4, 5]⟩ : SlidingConformal).threshold =
      ((kthSmallest (⟨mkRat 1 2, 4, [2, 3, 4, 5]⟩ : SlidingConformal).buf
        (kIndex (⟨mkRat 1 2, 4, [2, 3, 4, 5]⟩ : SlidingConformal).alpha
          (⟨mkRat 1 2, 4, [2, 3, 4, 5]⟩ : SlidingConformal).buf.length).toNat : ℚ) :
        WithTop ℚ) :=
  ⟨by decide, (claim1_threshold_quantile_rule ⟨mkRat 1 2, 4, [2, 3, 4, 5]⟩).2.1 (by decide)⟩

/-- C2 counterexample: on the warmup buffer [0,1] with alpha = 1/4 the
fixed-mode frozen threshold is 0 while the Sliding Calibrator rule of
section 4.3 returns 1, so the two quantile rules are not the same. -/
theorem claim2_counterexample :
    fixedThreshold (mkRat 1 4) [0, 1] = 0 ∧
    thresholdQ (mkRat 1 4) [0, 1] = 1 ∧
    (⟨mkRat 1 4, 2, [0, 1]⟩ : SlidingConformal).threshold = ((1 : ℚ) : WithTop ℚ) ∧
    fixedThreshold (mkRat 1 4) [0, 1] ≠ thresholdQ (mkRat 1 4) [0, 1] := by
  refine ⟨by decide, by decide, by decide, by decide⟩

/-- C2 amended: the one-time frozen threshold of Fixed-after-warmup mode is
the element of the ascending-sorted warmup buffer at 0-indexed position
clamp(floor((1 - alpha) * (n - 1)), 0, n - 1) — the nearest-rank-floor rule
also used by the percentile and TPR estimators — not the round-based rule
of the Sliding Calibrator. -/
theorem claim2_fixed_uses_nearest_rank_floor (alpha : ℚ) (warm : List ℚ)
    (h0 : 0 ≤ alpha) (h1 : alpha ≤ 1) (hw : warm ≠ []) :
    fixedThreshold alpha warm = fixedThresholdSpec alpha warm := by
  have hn : 1 ≤ warm.length := List.length_pos.mpr hw
  have hlen : (sortedL warm).length = warm.length := sortedL_length warm
  have hcast : (1 : ℚ) ≤ (warm.length : ℚ) := by exact_mod_cast hn
  have hxnn : 0 ≤ (1 - alpha) * ((warm.length : ℚ) - 1) := by nlinarith
  have hxle : (1 - alpha) * ((warm.length : ℚ) - 1) ≤ (warm.length : ℚ) - 1 := by nlinarith
  have hfl0 : 0 ≤ ⌊(1 - alpha) * ((warm.length : ℚ) - 1)⌋ := Int.floor_nonneg.mpr hxnn
  have hflle : ⌊(1 - alpha) * ((warm.length : ℚ) - 1)⌋ ≤ (warm.length : ℤ) - 1 := by
    have h2 : ((warm.length : ℤ) - 1 : ℤ) = ⌊((warm.length : ℚ) - 1)⌋ := by
      rw [show ((warm.length : ℚ) - 1) = (((warm.length : ℤ) - 1 : ℤ) : ℚ) by push_cast; ring,
        Int.floor_intCast]
    rw [h2]
    exact Int.floor_mono hxle
  simp only [fixedThreshold, fixedThresholdSpec, hlen]
  rw [pyInt_eq_floor hxnn]
  congr 1
  omega

/-- Witness for C2 at alpha = 1/4 and warmup buffer [0,1]. -/
theorem claim2_witness :
    (0 : ℚ) ≤ mkRat 1 4 ∧ (mkRat 1 4 : ℚ) ≤ 1 ∧ ([0, 1] : List ℚ) ≠ [] ∧
    fixedThreshold (mkRat 1 4) [0, 1] = fixedThresholdSpec (mkRat 1 4) [0, 1] :=
  ⟨by decide, by decide, by decide,
    claim2_fixed_uses_nearest_rank_floor (mkRat 1 4) [0, 1] (by decide) (by decide) (by decide)⟩

/-- C3 counterexample: with warmup 3 and alpha = 1/2 on the score stream
[5,5,1,2] with a drift signal at event 1, event 3 is only 2 calibrator
updates past the drift-triggered reset, yet its anomaly flag is set,
because the gate counter calib_n is never reset. -/
theorem claim3_counterexample :
    (runStream driftGateCfg [5, 5, 1, 2] (fun i => decide (i = 1))).flags =
      [false, false, false, true] ∧
    updatesSinceReset (fun i => decide (i = 1)) 3 = 2 ∧
    2 < driftGateCfg.warmup := by
  refine ⟨by decide, by decide, by decide⟩

/-- C3 amended: in Adaptive (conformal) mode the warmup gate compares
calib_n, the count of calibrator updates since the start of the run — a
counter that drift-triggered resets do not clear — so a flag can only be
set once at least warmup events have been processed in total, not since
the last reset. -/
theorem claim3_warmup_gate_counts_from_start (cfg : OrchConfig) (scores : List ℚ)
    (driftSig : ℕ → Bool) (j : ℕ) (hmode : cfg.noCalib = false)
    (hflag : (runStream cfg scores driftSig).flags.getD j false = true) :
    cfg.warmup ≤ j + 1 :=
  ((runStream_inv cfg scores driftSig).2.2.2.2.2 j hflag).2 hmode

/-- Witness for C3 on the drift-gate run: the flag at event 3 is set and
3 + 1 total events satisfy the warmup bound. -/
theorem claim3_witness :
    driftGateCfg.noCalib = false ∧
    (runStream driftGateCfg [5, 5, 1, 2] (fun i => decide (i = 1))).flags.getD 3 false
      = true ∧
    driftGateCfg.warmup ≤ 3 + 1 :=
  ⟨rfl, by decide,
    claim3_warmup_gate_counts_from_start driftGateCfg [5, 5, 1, 2]
      (fun i => decide (i = 1)) 3 rfl (by decide)⟩

/-- C4 counterexample: positive infinity converts via float() without
error, so update appends it and raises nothing although it is not a finite
real number — the raise-iff-not-finite-convertible claim fails in the
non-finite direction. -/
theorem claim4_counterexample :
    (updateFloat 4 [] (some PyFloat.pinf)).1 = false ∧
    (updateFloat 4 [] (some PyFloat.pinf)).2 = [PyFloat.pinf] ∧
    PyFloat.pinf.isFinite = false := by
  refine ⟨rfl, rfl, rfl⟩

/-- C4 amended: update(score) raises exactly when float(score) fails — the
value is not convertible to a float at all — leaving the buffer unchanged;
every convertible value, finite or not (inf, nan), is appended with
eviction and raises nothing. -/
theorem claim4_update_raises_iff_not_convertible (w : ℕ) (buf : List PyFloat) :
    ((updateFloat w buf none).1 = true ∧ (updateFloat w buf none).2 = buf) ∧
    ∀ v : PyFloat, (updateFloat w buf (some v)).1 = false ∧
      (updateFloat w buf (some v)).2 = dequeAppend w buf v :=
  ⟨⟨rfl, rfl⟩, fun _ => ⟨rfl, rfl⟩⟩

/-- C5 counterexample: with labels [0,1] and three events scored [1,2,10],
the run completes but the TPR metric is left as NaN (none), even though the
truncated-prefix computation is well defined and equals 1. -/
theorem claim5_counterexample :
    tpr1OfRun shortLabelCfg (runStream shortLabelCfg [1, 2, 10] (fun _ => false)) = none ∧
    tprAtFpr [1, 2] (some [0, 1]) (mkRat 1 100) = some (1, 1) := by
  refine ⟨by decide, by decide⟩

/-- C5 amended: a labels array strictly shorter than the event stream does
not make the run fail — label collection is truncated to the overlapping
prefix — but the TPR-at-fixed-FPR metric is then skipped (left NaN), not
computed on the truncated prefix, because the collected labels no longer
align 1:1 with the scores. -/
theorem claim5_short_labels_skip_tpr (cfg : OrchConfig) (scores : List ℚ)
    (driftSig : ℕ → Bool) (ls : List ℤ) (hl : cfg.labels = some ls)
    (hshort : ls.length < scores.length) :
    (runStream cfg scores driftSig).yTrue = ls.take scores.length ∧
    tpr1OfRun cfg (runStream cfg scores driftSig) = none := by
  have inv := runStream_inv cfg scores driftSig
  have hy := inv.2.2.2.2.1 ls hl
  refine ⟨hy, ?_⟩
  have hslen : (runStream cfg scores driftSig).scores.length = scores.length := inv.1
  simp only [tpr1OfRun, hl]
  rw [if_neg]
  rw [hy, hslen, List.length_take]
  omega

/-- Witness for C5 on the short-label run: three events, two labels. -/
theorem claim5_witness :
    shortLabelCfg.labels = some [0, 1] ∧
    ([0, 1] : List ℤ).length < ([1, 2, 10] : List ℚ).length ∧
    (runStream shortLabelCfg [1, 2, 10] (fun _ => false)).yTrue =
      ([0, 1] : List ℤ).take ([1, 2, 10] : List ℚ).length ∧
    tpr1OfRun shortLabelCfg (runStream shortLabelCfg [1, 2, 10] (fun _ => false)) = none :=
  ⟨rfl, by decide,
    (claim5_short_labels_skip_tpr shortLabelCfg [1, 2, 10] (fun _ => false) [0, 1]
      rfl (by decide)).1,
    (claim5_short_labels_skip_tpr shortLabelCfg [1, 2, 10] (fun _ => false) [0, 1]
      rfl (by decide)).2⟩

/-- C6: for alpha in (0,1) and a non-empty buffer, threshold() does not
decrease when a score at least the current threshold is added via update,
and does not increase when, on a full window, the added score is no larger
than the evicted oldest entry. -/
theorem claim6_threshold_monotone (c : SlidingConformal) (s : ℚ)
    (h0 : 0 < c.alpha) (h1 : c.alpha < 1) (hb : c.buf ≠ [])
    (hw : c.buf.length ≤ c.window) :
    (c.threshold ≤ ((s : ℚ) : WithTop ℚ) → c.threshold ≤ (c.update s).threshold) ∧
    (c.buf.length = c.window → s ≤ c.buf.headI →
      (c.update s).threshold ≤ c.threshold) := by
  have hb2 : (c.update s).buf ≠ [] := by
    rw [update_buf]; exact dequeAppend_ne_nil hb hw s
  rw [threshold_eq_of_ne_nil hb, threshold_eq_of_ne_nil hb2, update_alpha, update_buf]
  constructor
  · intro hs
    rw [WithTop.coe_le_coe] at hs ⊢
    exact thresholdQ_mono_high h0 h1 hb hw hs
  · intro hfull hhd
    rw [WithTop.coe_le_coe]
    exact thresholdQ_mono_low h0 hb hfull hhd

/-- Witness for C6 at alpha = 1/2, window 2, buffer [3,1] (oldest 3) and
added score 2, which is at least the threshold 1 and at most the evicted
oldest entry 3. -/
theorem claim6_witness :
    ((⟨mkRat 1 2, 2, [3, 1]⟩ : SlidingConformal).threshold ≤ (((2 : ℚ)) : WithTop ℚ) ∧
      (⟨mkRat 1 2, 2, [3, 1]⟩ : SlidingConformal).threshold ≤
        ((⟨mkRat 1 2, 2, [3, 1]⟩ : SlidingConformal).update 2).threshold) ∧
    ((⟨mkRat 1 2, 2, [3, 1]⟩ : SlidingConformal).buf.length =
      (⟨mkRat 1 2, 2, [3, 1]⟩ : SlidingConformal).window ∧
      (2 : ℚ) ≤ (⟨mkRat 1 2, 2, [3, 1]⟩ : SlidingConformal).buf.headI ∧
      ((⟨mkRat 1 2, 2, [3, 1]⟩ : SlidingConformal).update 2).threshold ≤
        (⟨mkRat 1 2, 2, [3, 1]⟩ : SlidingConformal).threshold) :=
  ⟨⟨by decide,
    (claim6_threshold_monotone ⟨mkRat 1 2, 2, [3, 1]⟩ 2 (by decide) (by decide)
      (by decide) (by decide)).1 (by decide)⟩,
   ⟨by decide, by decide,
    (claim6_threshold_monotone ⟨mkRat 1 2, 2, [3, 1]⟩ 2 (by decide) (by decide)
      (by decide) (by decide)).2 (by decide) (by decide)⟩⟩

/-- C7: when the negative-labeled and positive-labeled score sets are both
non-empty and every positive score strictly exceeds every negative score,
tpr_at_fpr returns TPR = 1 for any positive target FPR. -/
theorem claim7_tpr_one_when_separated (scores : List ℚ) (ys : List ℤ) (f : ℚ)
    (hlen : scores.length = ys.length)
    (hneg : negScores scores ys ≠ []) (hpos : posScores scores ys ≠ [])
    (hsep : ∀ a ∈ negScores scores ys, ∀ b ∈ posScores scores ys, a < b)
    (_hf : 0 < f) :
    (tprAtFpr scores (some ys) f).map Prod.fst = some 1 := by
  simp only [tprAtFpr]
  rw [if_neg (by omega), if_neg (not_or.mpr ⟨hneg, hpos⟩)]
  have hnn : 1 ≤ (negScores scores ys).length := List.length_pos.mpr hneg
  have hns : (sortedL (negScores scores ys)).length = (negScores scores ys).length :=
    sortedL_length _
  have hidx : (max 0 (min (pyInt ((1 - f) *
      (((sortedL (negScores scores ys)).length : ℚ) - 1)))
      (((sortedL (negScores scores ys)).length : ℤ) - 1))).toNat <
      (sortedL (negScores scores ys)).length := by
    have hminle : min (pyInt ((1 - f) *
        (((sortedL (negScores scores ys)).length : ℚ) - 1)))
        (((sortedL (negScores scores ys)).length : ℤ) - 1) ≤
        ((sortedL (negScores scores ys)).length : ℤ) - 1 := min_le_right _ _
    omega
  have hthrmem : fprThreshold (negScores scores ys) f ∈ negScores scores ys := by
    rw [fprThreshold]
    exact ((sortedL_perm _).mem_iff).mp (getD_mem _ hidx 0)
  have hall : ∀ b ∈ posScores scores ys,
      (fun x => decide (fprThreshold (negScores scores ys) f ≤ x)) b = true := by
    intro b hb
    exact decide_eq_true (le_of_lt (hsep _ hthrmem b hb))
  have hcnt : (posScores scores ys).countP
      (fun x => decide (fprThreshold (negScores scores ys) f ≤ x)) =
      (posScores scores ys).length := List.countP_eq_length.mpr hall
  have hplen : (0 : ℚ) < ((posScores scores ys).length : ℚ) := by
    exact_mod_cast List.length_pos.mpr hpos
  rw [Option.map_some', hcnt]
  rw [div_self (ne_of_gt hplen)]

/-- Witness for C7 on scores [1,2,10] with labels [0,0,1]. -/
theorem claim7_witness :
    ([1, 2, 10] : List ℚ).length = ([0, 0, 1] : List ℤ).length ∧
    negScores [1, 2, 10] [0, 0, 1] ≠ [] ∧ posScores [1, 2, 10] [0, 0, 1] ≠ [] ∧
    (∀ a ∈ negScores [1, 2, 10] [0, 0, 1], ∀ b ∈ posScores [1, 2, 10] [0, 0, 1], a < b) ∧
    (0 : ℚ) < mkRat 1 100 ∧
    (tprAtFpr [1, 2, 10] (some [0, 0, 1]) (mkRat 1 100)).map Prod.fst = some 1 :=
  ⟨rfl, by decide, by decide, by decide, by decide,
    claim7_tpr_one_when_separated [1, 2, 10] [0, 0, 1] (mkRat 1 100) rfl
      (by decide) (by decide) (by decide) (by decide)⟩

/-- C8: score_and_update on an empty token sequence returns 0.0, raises no
error, and leaves the context buffer and all other scorer state unchanged,
for every window, every embedding function and every numeric scoring
core. -/
theorem claim8_empty_tokens_no_update {V : Type} (core : List String → List V → ℚ)
    (emb : String → V) (m : TransformerScorer V) :
    TransformerScorer.scoreAndUpdate core emb m [] = (0, m) := rfl

/-- C9: the percentile estimator returns the ascending-sorted element at
0-indexed position floor((p/100) * (m-1)) for non-empty input and p in
[0,100], so percentile 0 is the minimum and percentile 100 the maximum;
empty input yields the NaN marker (none). -/
theorem claim9_percentile_rule (xs : List ℚ) (p : ℚ) :
    perc ([] : List ℚ) p = none ∧
    (xs ≠ [] → 0 ≤ p → p ≤ 100 →
      perc xs p = some ((sortedL xs).getD (⌊(p / 100) * ((xs.length : ℚ) - 1)⌋).toNat 0)) ∧
    (xs ≠ [] → ∃ m, perc xs 0 = some m ∧ m ∈ xs ∧ ∀ b ∈ xs, m ≤ b) ∧
    (xs ≠ [] → ∃ m, perc xs 100 = some m ∧ m ∈ xs ∧ ∀ b ∈ xs, b ≤ m) := by
  refine ⟨by simp [perc], ?_, ?_, ?_⟩
  · intro hx h0 h100
    have hn : 1 ≤ xs.length := List.length_pos.mpr hx
    have hlen : (sortedL xs).length = xs.length := sortedL_length xs
    have hcast : (1 : ℚ) ≤ (xs.length : ℚ) := by exact_mod_cast hn
    have hp : 0 ≤ p / 100 := by positivity
    have hnn : 0 ≤ (p / 100) * ((xs.length : ℚ) - 1) := by nlinarith
    simp only [perc, if_neg hx, hlen]
    rw [pyInt_eq_floor hnn]
  · intro hx
    have hn : 1 ≤ xs.length := List.length_pos.mpr hx
    have hlen : (sortedL xs).length = xs.length := sortedL_length xs
    have hsnn : sortedL xs ≠ [] := by
      intro hcon
      rw [hcon] at hlen
      simp only [List.length_nil] at hlen
      omega
    obtain ⟨hd, tl, hcons⟩ := List.exists_cons_of_ne_nil hsnn
    refine ⟨hd, ?_, ?_, ?_⟩
    · simp only [perc, if_neg hx]
      rw [show ((0 : ℚ) / 100) * (((sortedL xs).length : ℚ) - 1) = 0 by ring,
        pyInt_eq_floor le_rfl, Int.floor_zero]
      rw [hcons]
      rfl
    · exact ((sortedL_perm xs).mem_iff).mp (hcons ▸ List.mem_cons_self hd tl)
    · intro b hb
      have hbs : b ∈ sortedL xs := ((sortedL_perm xs).mem_iff).mpr hb
      have hsort := sortedL_sorted xs
      rw [hcons] at hbs hsort
      rw [List.sorted_cons] at hsort
      rcases List.mem_cons.mp hbs with hbe | hbt
      · exact le_of_eq (congrArg id hbe).symm
      · exact hsort.1 b hbt
  · intro hx
    have hn : 1 ≤ xs.length := List.length_pos.mpr hx
    have hlen : (sortedL xs).length = xs.length := sortedL_length xs
    have hidx : xs.length - 1 < (sortedL xs).length := by omega
    refine ⟨(sortedL xs).getD (xs.length - 1) 0, ?_, ?_, ?_⟩
    · simp only [perc, if_neg hx, hlen]
      rw [show ((100 : ℚ) / 100) * ((xs.length : ℚ) - 1) =
        (((xs.length : ℤ) - 1 : ℤ) : ℚ) by push_cast; ring]
      have hz : (0 : ℤ) ≤ (xs.length : ℤ) - 1 := by omega
      rw [pyInt_eq_floor (by exact_mod_cast hz), Int.floor_intCast,
        show ((xs.length : ℤ) - 1).toNat = xs.length - 1 by omega]
    · exact ((sortedL_perm xs).mem_iff).mp (getD_mem _ hidx 0)
    · intro b hb
      have hbs : b ∈ sortedL xs := ((sortedL_perm xs).mem_iff).mpr hb
      obtain ⟨i, hilt, hieq⟩ := List.mem_iff_getElem.mp hbs
      rw [← hieq, getD_eq_getElem _ hidx]
      have hsort := sortedL_sorted xs
      rcases Nat.lt_or_ge i (xs.length - 1) with hlt | hge
      · exact (List.pairwise_iff_getElem.mp hsort) i (xs.length - 1) hilt hidx hlt
      · have : i = xs.length - 1 := by omega
        subst this
        exact le_rfl

/-- Witness for C9 at xs = [3,1,2] and p = 50. -/
theorem claim9_witness :
    ([3, 1, 2] : List ℚ) ≠ [] ∧ (0 : ℚ) ≤ 50 ∧ (50 : ℚ) ≤ 100 ∧
    perc [3, 1, 2] 50 = some ((sortedL [3, 1, 2]).getD
      (⌊((50 : ℚ) / 100) * ((([3, 1, 2] : List ℚ).length : ℚ) - 1)⌋).toNat 0) :=
  ⟨by decide, by decide, by decide,
    (claim9_percentile_rule [3, 1, 2] 50).2.1 (by decide) (by decide) (by decide)⟩

/-- C10: in both calibration policies the per-event anomaly decision uses a
strict comparison, so every recorded Decision with the flag set has its
score strictly above the recorded threshold; a score exactly equal to the
threshold is never flagged. -/
theorem claim10_flag_implies_strict_exceed (cfg : OrchConfig) (scores : List ℚ)
    (driftSig : ℕ → Bool) (j : ℕ)
    (hflag : (runStream cfg scores driftSig).flags.getD j false = true) :
    (runStream cfg scores driftSig).thrSeries.getD j ⊤ <
      (((runStream cfg scores driftSig).scores.getD j 0 : ℚ) : WithTop ℚ) :=
  ((runStream_inv cfg scores driftSig).2.2.2.2.2 j hflag).1

/-- Witness for C10 on the drift-gate run at event 3: flag set, score 2,
recorded threshold 1. -/
theorem claim10_witness :
    (runStream driftGateCfg [5, 5, 1, 2] (fun i => decide (i = 1))).flags.getD 3 false
      = true ∧
    (runStream driftGateCfg [5, 5, 1, 2] (fun i => decide (i = 1))).thrSeries.getD 3 ⊤ <
      (((runStream driftGateCfg [5, 5, 1, 2]
        (fun i => decide (i = 1))).scores.getD 3 0 : ℚ) : WithTop ℚ) :=
  ⟨by decide,
    claim10_flag_implies_strict_exceed driftGateCfg [5, 5, 1, 2]
      (fun i => decide (i = 1)) 3 (by decide)⟩

end LogProject
